import Mathlib

/-!
# Verification of the sprint-planner workflow orchestration engine

Shallow embedding of the core components of the repository:

* `MvpParser` — `adws/adw_modules/mvp_parser.py`: chunk data model,
  dependency analysis and the parallel-wave scheduler.
* `AdwTest` — `adws/adw_test.py`: the bounded retry-with-resolution loops
  for unit-test and end-to-end test batches.
* `Agent` — `adws/adw_modules/agent.py`: the result-handling logic of the
  agent gateway `prompt_claude_code`.
* `AdwState` — `adws/adw_modules/state.py`: the persistent workflow state
  record `ADWState`.
* `TriggerCron` — `adws/adw_triggers/trigger_cron.py`: polling-trigger
  de-duplication.

External collaborators (the coding agent subprocess, GitHub, the file
system) are modelled as explicit parameters/oracles; every function that
the Python source defines is translated directly from its source text.
-/

namespace MvpParser

/-- A single task within an implementation chunk (`ChunkTask`). -/
structure ChunkTask where
  description : String
  order : Nat
  deriving Repr, DecidableEq

/-- A deliverable for an implementation chunk (`ChunkDeliverable`). -/
structure ChunkDeliverable where
  description : String
  deriving Repr, DecidableEq

/-- Acceptance criteria for a chunk (`ChunkAcceptanceCriteria`). -/
structure ChunkAcceptanceCriteria where
  description : String
  deriving Repr, DecidableEq

/-- A single implementation chunk from the spec (`ImplementationChunk`).
Field defaults mirror the pydantic model defaults. -/
structure ImplementationChunk where
  chunk_number : Nat
  title : String := ""
  description : Option String := none
  day_estimate : Option String := none
  tasks : List ChunkTask := []
  deliverables : List ChunkDeliverable := []
  acceptance_criteria : List ChunkAcceptanceCriteria := []
  depends_on : List Nat := []
  raw_content : String := ""
  deriving Repr, DecidableEq

/-- The chunk numbers of a list of chunks, in order. -/
def chunkNums (chunks : List ImplementationChunk) : List Nat :=
  chunks.map (·.chunk_number)

/-- One pass of the inner `for chunk in chunks` loop of
`get_parallel_chunks`: the chunk numbers of all not-yet-executed chunks
whose dependencies are all already executed, in list order. -/
def readyChunks (chunks : List ImplementationChunk) (executed : Finset Nat) :
    List Nat :=
  (chunks.filter (fun c =>
    decide (c.chunk_number ∉ executed) &&
      c.depends_on.all (fun dep => decide (dep ∈ executed)))).map (·.chunk_number)

/-- The `remaining` list computed when no chunk is ready
(`[c.chunk_number for c in chunks if c.chunk_number not in executed]`). -/
def remainingChunks (chunks : List ImplementationChunk) (executed : Finset Nat) :
    List Nat :=
  (chunks.filter (fun c => decide (c.chunk_number ∉ executed))).map (·.chunk_number)

/-- The `while len(executed) < len(chunks)` loop of `get_parallel_chunks`.
The `ValueError` raised on a circular dependency is modelled as
`Except.error` carrying the `remaining` list interpolated into its message.
`fuel` bounds the recursion; since every iteration either raises or strictly
grows `executed` (a set bounded by the chunk count), `chunks.length + 1`
units of fuel are never exhausted, so the `fuel = 0` branch is unreachable
from `get_parallel_chunks`. -/
def getParallelChunksGo (chunks : List ImplementationChunk) :
    Nat → Finset Nat → List (List Nat) → Except (List Nat) (List (List Nat))
  | 0, _, _ => Except.error []
  | fuel + 1, executed, groups =>
    if executed.card < chunks.length then
      let ready := readyChunks chunks executed
      if ready = [] then
        Except.error (remainingChunks chunks executed)
      else
        getParallelChunksGo chunks fuel (executed ∪ ready.toFinset)
          (groups ++ [ready])
    else
      Except.ok groups

/-- `get_parallel_chunks`: group chunks into waves executable in parallel. -/
def get_parallel_chunks (chunks : List ImplementationChunk) :
    Except (List Nat) (List (List Nat)) :=
  getParallelChunksGo chunks (chunks.length + 1) ∅ []

/-- Membership in `readyChunks`, unfolded. -/
theorem mem_readyChunks {chunks : List ImplementationChunk} {executed : Finset Nat}
    {n : Nat} :
    n ∈ readyChunks chunks executed ↔
      ∃ c ∈ chunks, c.chunk_number = n ∧ n ∉ executed ∧
        ∀ d ∈ c.depends_on, d ∈ executed := by
  simp only [readyChunks, List.mem_map, List.mem_filter, Bool.and_eq_true,
    decide_eq_true_eq, List.all_eq_true]
  constructor
  · rintro ⟨c, ⟨hc, hne, hdeps⟩, rfl⟩
    exact ⟨c, hc, rfl, hne, hdeps⟩
  · rintro ⟨c, hc, rfl, hne, hdeps⟩
    exact ⟨c, ⟨hc, hne, hdeps⟩, rfl⟩

/-- Membership in `remainingChunks`, unfolded. -/
theorem mem_remainingChunks {chunks : List ImplementationChunk}
    {executed : Finset Nat} {n : Nat} :
    n ∈ remainingChunks chunks executed ↔
      ∃ c ∈ chunks, c.chunk_number = n ∧ n ∉ executed := by
  simp only [remainingChunks, List.mem_map, List.mem_filter, decide_eq_true_eq]
  constructor
  · rintro ⟨c, ⟨hc, hne⟩, rfl⟩
    exact ⟨c, hc, rfl, hne⟩
  · rintro ⟨c, hc, rfl, hne⟩
    exact ⟨c, ⟨hc, hne⟩, rfl⟩

/-- If a nonempty set `S` of chunk numbers is "stuck" — every chunk numbered
in `S` has a dependency in `S` — then the scheduler loop, started in any state
whose executed set avoids `S`, ends in the cyclic-dependency error, and every
element of `S` is listed in the error's remaining set. -/
theorem getParallelChunksGo_stuck
    (chunks : List MvpParser.ImplementationChunk) (S : Finset Nat)
    (hS : S.Nonempty)
    (hSnums : ∀ n ∈ S, ∃ c ∈ chunks, c.chunk_number = n)
    (hstuck : ∀ c ∈ chunks, c.chunk_number ∈ S → ∃ d ∈ c.depends_on, d ∈ S) :
    ∀ fuel executed groups,
      (∀ n ∈ S, n ∉ executed) →
      executed ⊆ (chunkNums chunks).toFinset →
      chunks.length + 1 ≤ fuel + executed.card →
      ∃ rem, getParallelChunksGo chunks fuel executed groups = Except.error rem ∧
        ∀ n ∈ S, n ∈ rem := by
  have hSsub : S ⊆ (chunkNums chunks).toFinset := by
    intro n hn
    obtain ⟨c, hc, rfl⟩ := hSnums n hn
    simp only [chunkNums, List.mem_toFinset, List.mem_map]
    exact ⟨c, hc, rfl⟩
  have hnumcard : (chunkNums chunks).toFinset.card ≤ chunks.length := by
    calc (chunkNums chunks).toFinset.card ≤ (chunkNums chunks).length :=
          (chunkNums chunks).toFinset_card_le
      _ = chunks.length := by simp [chunkNums]
  intro fuel
  induction fuel with
  | zero =>
    intro executed groups hdisj hsub hfuel
    exfalso
    have : executed.card ≤ chunks.length :=
      le_trans (Finset.card_le_card hsub) hnumcard
    omega
  | succ fuel ih =>
    intro executed groups hdisj hsub hfuel
    by_cases hlt : executed.card < chunks.length
    · rw [getParallelChunksGo]
      simp only [hlt, if_true]
      by_cases hready : readyChunks chunks executed = []
      · simp only [hready, if_true]
        refine ⟨remainingChunks chunks executed, rfl, ?_⟩
        intro n hn
        obtain ⟨c, hc, rfl⟩ := hSnums n hn
        exact mem_remainingChunks.mpr ⟨c, hc, rfl, hdisj _ hn⟩
      · simp only [hready, if_false]
        -- the newly executed set still avoids S
        have hdisj' : ∀ n ∈ S, n ∉ executed ∪ (readyChunks chunks executed).toFinset := by
          intro n hn hmem
          rcases Finset.mem_union.mp hmem with h | h
          · exact hdisj n hn h
          · obtain ⟨c, hc, hcn, hne, hdeps⟩ :=
              mem_readyChunks.mp (List.mem_toFinset.mp h)
            obtain ⟨d, hd, hdS⟩ := hstuck c hc (hcn ▸ hn)
            exact hdisj d hdS (hdeps d hd)
        have hsub' : executed ∪ (readyChunks chunks executed).toFinset ⊆
            (chunkNums chunks).toFinset := by
          intro n hn
          rcases Finset.mem_union.mp hn with h | h
          · exact hsub h
          · obtain ⟨c, hc, hcn, _, _⟩ :=
              mem_readyChunks.mp (List.mem_toFinset.mp h)
            simp only [chunkNums, List.mem_toFinset, List.mem_map]
            exact ⟨c, hc, hcn⟩
        have hgrow : executed.card <
            (executed ∪ (readyChunks chunks executed).toFinset).card := by
          apply Finset.card_lt_card
          rw [Finset.ssubset_iff_of_subset Finset.subset_union_left]
          obtain ⟨n₀, hn₀⟩ := List.exists_mem_of_ne_nil _ hready
          obtain ⟨c, hc, hcn, hne, _⟩ := mem_readyChunks.mp hn₀
          exact ⟨n₀, Finset.mem_union_right _ (List.mem_toFinset.mpr hn₀), hne⟩
        exact ih _ _ hdisj' hsub' (by omega)
    · exfalso
      -- the loop cannot exit: executed avoids the nonempty stuck set S
      have hsubS : executed ⊆ (chunkNums chunks).toFinset \ S := by
        intro n hn
        exact Finset.mem_sdiff.mpr ⟨hsub hn, fun hnS => hdisj n hnS hn⟩
      have hcard : executed.card ≤ (chunkNums chunks).toFinset.card - S.card := by
        calc executed.card ≤ ((chunkNums chunks).toFinset \ S).card :=
              Finset.card_le_card hsubS
          _ = (chunkNums chunks).toFinset.card - S.card :=
              Finset.card_sdiff hSsub
      have hone : 1 ≤ S.card := Finset.card_pos.mpr hS
      have hScard : S.card ≤ (chunkNums chunks).toFinset.card :=
        Finset.card_le_card hSsub
      omega

/-- Dependency edge of the declared dependency graph: `b` depends on `a`,
i.e. some chunk numbered `b` lists `a` in its `depends_on`. -/
def depEdge (chunks : List ImplementationChunk) (a b : Nat) : Prop :=
  ∃ c ∈ chunks, c.chunk_number = b ∧ a ∈ c.depends_on

/-- A dependency path of the declared graph: a nonempty list of chunk
numbers in which each consecutive pair is a dependency edge. Its `length`
counts nodes, so the longest path length of a one-node graph is 1. -/
def IsDepChain (chunks : List ImplementationChunk) (l : List Nat) : Prop :=
  l ≠ [] ∧ (∀ n ∈ l, n ∈ chunkNums chunks) ∧ l.Chain' (depEdge chunks)

/-- The wave of ready chunk numbers is duplicate-free when chunk numbers
are. -/
theorem readyChunks_nodup {chunks : List ImplementationChunk}
    (hnd : (chunkNums chunks).Nodup) (executed : Finset Nat) :
    (readyChunks chunks executed).Nodup :=
  hnd.sublist (List.Sublist.map _ (List.filter_sublist chunks))

/-- Scheduling a nonempty ready wave strictly grows the executed set. -/
theorem readyChunks_card_lt {chunks : List ImplementationChunk}
    {executed : Finset Nat} (hready : readyChunks chunks executed ≠ []) :
    executed.card < (executed ∪ (readyChunks chunks executed).toFinset).card := by
  apply Finset.card_lt_card
  rw [Finset.ssubset_iff_of_subset Finset.subset_union_left]
  obtain ⟨n₀, hn₀⟩ := List.exists_mem_of_ne_nil _ hready
  obtain ⟨c, hc, hcn, hne, _⟩ := mem_readyChunks.mp hn₀
  exact ⟨n₀, Finset.mem_union_right _ (List.mem_toFinset.mpr hn₀), hne⟩

/-- Membership in a join, by wave index. -/
theorem exists_get_of_mem_flatten {L : List (List Nat)} {n : Nat}
    (h : n ∈ L.flatten) : ∃ i, ∃ hi : i < L.length, n ∈ L.get ⟨i, hi⟩ := by
  obtain ⟨w, hw, hnw⟩ := List.mem_flatten.mp h
  obtain ⟨i, hi⟩ := List.mem_iff_get.mp hw
  exact ⟨i.val, i.isLt, by rw [show (⟨i.val, i.isLt⟩ : Fin L.length) = i from rfl, hi]; exact hnw⟩

/-- Conversely, a member of any wave is in the join. -/
theorem mem_flatten_of_get {L : List (List Nat)} {n : Nat} {i : Nat}
    (hi : i < L.length) (h : n ∈ L.get ⟨i, hi⟩) : n ∈ L.flatten :=
  List.mem_flatten.mpr ⟨L.get ⟨i, hi⟩, L.get_mem _ _, h⟩

/-- In a duplicate-free join, each element lies in a unique wave. -/
theorem flatten_nodup_unique_wave {L : List (List Nat)} (hnd : L.flatten.Nodup)
    {n : Nat} {i j : Nat} (hi : i < L.length) (hj : j < L.length)
    (hni : n ∈ L.get ⟨i, hi⟩) (hnj : n ∈ L.get ⟨j, hj⟩) : i = j := by
  by_contra hne
  rcases Nat.lt_or_ge i j with hij | hij
  · have hdisj := (List.pairwise_iff_get.mp (List.nodup_flatten.mp hnd).2)
      ⟨i, hi⟩ ⟨j, hj⟩ hij
    exact hdisj hni hnj
  · have hij' : j < i := by omega
    have hdisj := (List.pairwise_iff_get.mp (List.nodup_flatten.mp hnd).2)
      ⟨j, hj⟩ ⟨i, hi⟩ hij'
    exact hdisj hnj hni

/-- The loop invariant of `get_parallel_chunks`: `groups` is the list of
waves scheduled so far and `executed` the set of their chunk numbers. -/
structure SchedInv (chunks : List ImplementationChunk)
    (executed : Finset Nat) (groups : List (List Nat)) : Prop where
  nodup : groups.flatten.Nodup
  exEq : executed = groups.flatten.toFinset
  wavesNe : ∀ w ∈ groups, w ≠ []
  subNums : ∀ n ∈ groups.flatten, n ∈ chunkNums chunks
  depsEarlier : ∀ c ∈ chunks, ∀ j, ∀ hj : j < groups.length,
      c.chunk_number ∈ groups.get ⟨j, hj⟩ → ∀ d ∈ c.depends_on,
        ∃ i, ∃ hi : i < groups.length, i < j ∧ d ∈ groups.get ⟨i, hi⟩
  backDep : ∀ j, ∀ hj : j + 1 < groups.length,
      ∀ n ∈ groups.get ⟨j + 1, hj⟩,
        ∃ c ∈ chunks, c.chunk_number = n ∧ ∃ d ∈ c.depends_on,
          d ∈ groups.get ⟨j, by omega⟩
  absorbed : groups ≠ [] → ∀ c ∈ chunks,
      (∀ d ∈ c.depends_on, d ∈ groups.dropLast.flatten) →
      c.chunk_number ∈ executed

/-- The invariant holds in the initial state. -/
theorem SchedInv.init (chunks : List ImplementationChunk) :
    SchedInv chunks ∅ [] := by
  refine ⟨by simp, by simp, by simp, by simp, ?_, ?_, by simp⟩
  · intro c _ j hj
    simp at hj
  · intro j hj
    simp at hj

/-- Indexing into the left part of an appended list. -/
theorem get_append_left_nat {α : Type} (l₁ l₂ : List α) (i : Nat)
    (h : i < l₁.length) (h₂ : i < (l₁ ++ l₂).length) :
    (l₁ ++ l₂).get ⟨i, h₂⟩ = l₁.get ⟨i, h⟩ := by
  simp [List.get_eq_getElem, List.getElem_append_left, h]

/-- Indexing a concatenated singleton at the end. -/
theorem get_concat_last {α : Type} (l : List α) (a : α)
    (h : l.length < (l ++ [a]).length) :
    (l ++ [a]).get ⟨l.length, h⟩ = a := by
  simp [List.get_eq_getElem]

/-- A nonempty list is its `dropLast` followed by its final element. -/
theorem eq_dropLast_concat_get_last {α : Type} (l : List α) (h : 0 < l.length) :
    l = l.dropLast ++ [l.get ⟨l.length - 1, by omega⟩] := by
  have hne : l ≠ [] := List.ne_nil_of_length_pos h
  conv_lhs => rw [← List.dropLast_append_getLast hne]
  congr 1
  rw [List.getLast_eq_getElem]
  simp [List.get_eq_getElem]

/-- One scheduler iteration preserves the invariant. -/
theorem SchedInv.step {chunks : List ImplementationChunk}
    {executed : Finset Nat} {groups : List (List Nat)}
    (inv : SchedInv chunks executed groups)
    (hnd : (chunkNums chunks).Nodup)
    (hready : readyChunks chunks executed ≠ []) :
    SchedInv chunks (executed ∪ (readyChunks chunks executed).toFinset)
      (groups ++ [readyChunks chunks executed]) := by
  have hinj := List.inj_on_of_nodup_map hnd
  set R := readyChunks chunks executed with hR
  have hflat : (groups ++ [R]).flatten = groups.flatten ++ R := by simp
  have hRnotflat : ∀ n ∈ R, n ∉ groups.flatten := by
    intro n hn hflatn
    obtain ⟨c, hc, hcn, hne, hdeps⟩ := mem_readyChunks.mp hn
    exact hne (inv.exEq ▸ List.mem_toFinset.mpr hflatn)
  constructor
  · -- nodup
    rw [hflat]
    exact inv.nodup.append (readyChunks_nodup hnd executed)
      (fun a ha haR => hRnotflat a haR ha)
  · -- exEq
    rw [hflat, List.toFinset_append, inv.exEq]
  · -- wavesNe
    intro w hw
    rcases List.mem_append.mp hw with h | h
    · exact inv.wavesNe w h
    · rw [List.mem_singleton.mp h]; exact hready
  · -- subNums
    intro n hn
    rw [hflat] at hn
    rcases List.mem_append.mp hn with h | h
    · exact inv.subNums n h
    · obtain ⟨c, hc, hcn, _, _⟩ := mem_readyChunks.mp h
      simp only [chunkNums, List.mem_map]
      exact ⟨c, hc, hcn⟩
  · -- depsEarlier
    intro c hc j hj hcj d hd
    have hlen : (groups ++ [R]).length = groups.length + 1 := by simp
    by_cases hjlt : j < groups.length
    · rw [get_append_left_nat groups [R] j hjlt hj] at hcj
      obtain ⟨i, hi, hij, hdi⟩ := inv.depsEarlier c hc j hjlt hcj d hd
      refine ⟨i, by omega, hij, ?_⟩
      rw [get_append_left_nat groups [R] i hi]
      exact hdi
    · -- j is the index of the new wave R
      have hjeq : j = groups.length := by omega
      subst hjeq
      rw [get_concat_last groups R hj] at hcj
      obtain ⟨c', hc', hc'n, hne, hdeps⟩ := mem_readyChunks.mp hcj
      have hcc : c' = c := hinj hc' hc hc'n
      subst hcc
      have hdex : d ∈ executed := hdeps d hd
      rw [inv.exEq] at hdex
      obtain ⟨i, hi, hdi⟩ := exists_get_of_mem_flatten (List.mem_toFinset.mp hdex)
      refine ⟨i, by omega, hi, ?_⟩
      rw [get_append_left_nat groups [R] i hi]
      exact hdi
  · -- backDep
    intro j hj n hn
    by_cases hjlt : j + 1 < groups.length
    · rw [get_append_left_nat groups [R] (j + 1) hjlt hj] at hn
      obtain ⟨c, hc, hcn, d, hd, hdi⟩ := inv.backDep j hjlt n hn
      refine ⟨c, hc, hcn, d, hd, ?_⟩
      rw [get_append_left_nat groups [R] j (by omega)]
      exact hdi
    · -- the new wave: every member has a dependency in the previous wave
      have hjeq : j + 1 = groups.length := by
        have : j + 1 < (groups ++ [R]).length := hj
        simp at this
        omega
      have hglen : 0 < groups.length := by omega
      have hgne : groups ≠ [] := List.ne_nil_of_length_pos hglen
      have hget : (groups ++ [R]).get ⟨j + 1, hj⟩ = R := by
        have := get_concat_last groups R (by simp)
        rw [show (⟨j + 1, hj⟩ : Fin (groups ++ [R]).length) =
          ⟨groups.length, by simp⟩ from by simp [hjeq]]
        exact this
      rw [hget] at hn
      obtain ⟨c, hc, hcn, hne, hdeps⟩ := mem_readyChunks.mp hn
      refine ⟨c, hc, hcn, ?_⟩
      by_contra hnone
      push_neg at hnone
      have hjlt' : j < groups.length := by omega
      have hgetj : (groups ++ [R]).get ⟨j, by omega⟩ = groups.get ⟨j, hjlt'⟩ :=
        get_append_left_nat groups [R] j hjlt' _
      -- every dependency then lies in the flatten of dropLast groups
      have hsplit := eq_dropLast_concat_get_last groups hglen
      have hjlast : groups.get ⟨groups.length - 1, by omega⟩ = groups.get ⟨j, hjlt'⟩ := by
        have hidx : groups.length - 1 = j := by omega
        simp only [hidx]
      have habs : ∀ d ∈ c.depends_on, d ∈ groups.dropLast.flatten := by
        intro d hd
        have hdex : d ∈ executed := hdeps d hd
        rw [inv.exEq] at hdex
        have hdflat : d ∈ groups.flatten := List.mem_toFinset.mp hdex
        rw [hsplit] at hdflat
        simp only [List.flatten_append, List.flatten_cons, List.flatten_nil,
          List.append_nil, List.mem_append] at hdflat
        rcases hdflat with h | h
        · have : groups.dropLast = (groups.dropLast ++
              [groups.get ⟨groups.length - 1, by omega⟩]).dropLast := by
            rw [List.dropLast_concat]
          exact this ▸ h
        · exfalso
          rw [hjlast] at h
          have := hnone d hd
          rw [hgetj] at this
          exact this h
      exact hne (hcn ▸ inv.absorbed hgne c hc habs)
  · -- absorbed
    intro _ c hc hdeps
    rw [List.dropLast_concat] at hdeps
    by_cases hmem : c.chunk_number ∈ executed
    · exact Finset.mem_union_left _ hmem
    · refine Finset.mem_union_right _ (List.mem_toFinset.mpr ?_)
      exact mem_readyChunks.mpr ⟨c, hc, rfl, hmem,
        fun d hd => inv.exEq ▸ List.mem_toFinset.mpr (hdeps d hd)⟩

/-- Under an acyclicity ranking, the ready set is nonempty whenever
unscheduled chunks remain (a minimal-rank unscheduled chunk is ready). -/
theorem readyChunks_ne_nil {chunks : List ImplementationChunk}
    {executed : Finset Nat}
    (hnd : (chunkNums chunks).Nodup)
    (hclosed : ∀ c ∈ chunks, ∀ d ∈ c.depends_on, d ∈ chunkNums chunks)
    (rank : Nat → Nat)
    (hrank : ∀ c ∈ chunks, ∀ d ∈ c.depends_on, rank d < rank c.chunk_number)
    (hlt : executed.card < chunks.length) :
    readyChunks chunks executed ≠ [] := by
  set U := chunks.filter (fun c => decide (c.chunk_number ∉ executed)) with hU
  have hUne : U ≠ [] := by
    intro hUnil
    have hall : ∀ c ∈ chunks, c.chunk_number ∈ executed := by
      intro c hc
      by_contra hne
      have hcu : c ∈ U := List.mem_filter.mpr ⟨hc, by simpa using hne⟩
      rw [hUnil] at hcu
      simp at hcu
    have hsub2 : (chunkNums chunks).toFinset ⊆ executed := by
      intro n hn
      rw [List.mem_toFinset] at hn
      obtain ⟨c, hc, rfl⟩ := by simpa [chunkNums] using hn
      exact hall c hc
    have hcard : (chunkNums chunks).toFinset.card ≤ executed.card :=
      Finset.card_le_card hsub2
    rw [List.toFinset_card_of_nodup hnd] at hcard
    simp only [chunkNums, List.length_map] at hcard
    omega
  obtain ⟨c₀, hc₀⟩ : ∃ c₀, U.argmin (fun c => rank c.chunk_number) = some c₀ := by
    cases hargeq : U.argmin (fun c => rank c.chunk_number) with
    | none => exact absurd (List.argmin_eq_none.mp hargeq) hUne
    | some c₀ => exact ⟨c₀, rfl⟩
  have hc₀min : c₀ ∈ U.argmin (fun c => rank c.chunk_number) := by
    rw [hc₀]; rfl
  have hc₀U : c₀ ∈ U := List.argmin_mem hc₀min
  have hc₀chunks : c₀ ∈ chunks := (List.mem_filter.mp hc₀U).1
  have hc₀notex : c₀.chunk_number ∉ executed := by
    have := (List.mem_filter.mp hc₀U).2
    simpa using this
  have hdeps : ∀ d ∈ c₀.depends_on, d ∈ executed := by
    intro d hd
    by_contra hdne
    obtain ⟨cd, hcd, hcdn⟩ := by
      simpa [chunkNums] using hclosed c₀ hc₀chunks d hd
    have hcdU : cd ∈ U := List.mem_filter.mpr ⟨hcd, by simp [hcdn, hdne]⟩
    have hmin : rank c₀.chunk_number ≤ rank cd.chunk_number :=
      List.le_of_mem_argmin (f := fun c => rank c.chunk_number) hcdU hc₀min
    have hlt2 : rank d < rank c₀.chunk_number := hrank c₀ hc₀chunks d hd
    rw [hcdn] at hmin
    omega
  exact List.ne_nil_of_mem
    (mem_readyChunks.mpr ⟨c₀, hc₀chunks, rfl, hc₀notex, hdeps⟩)

/-- Under an acyclicity ranking, the scheduler loop always succeeds and its
final wave list satisfies the invariant and covers all chunks. -/
theorem getParallelChunksGo_dag {chunks : List ImplementationChunk}
    (hnd : (chunkNums chunks).Nodup)
    (hclosed : ∀ c ∈ chunks, ∀ d ∈ c.depends_on, d ∈ chunkNums chunks)
    (rank : Nat → Nat)
    (hrank : ∀ c ∈ chunks, ∀ d ∈ c.depends_on, rank d < rank c.chunk_number) :
    ∀ fuel executed groups, SchedInv chunks executed groups →
      chunks.length + 1 ≤ fuel + executed.card →
      ∃ waves, getParallelChunksGo chunks fuel executed groups = Except.ok waves ∧
        SchedInv chunks (waves.flatten.toFinset) waves ∧
        chunks.length ≤ waves.flatten.toFinset.card := by
  intro fuel
  induction fuel with
  | zero =>
    intro executed groups inv hfuel
    exfalso
    have hsub : executed ⊆ (chunkNums chunks).toFinset := by
      rw [inv.exEq]
      intro n hn
      exact List.mem_toFinset.mpr (inv.subNums n (List.mem_toFinset.mp hn))
    have h1 := Finset.card_le_card hsub
    have h2 := (chunkNums chunks).toFinset_card_le
    have h3 : (chunkNums chunks).length = chunks.length := by
      simp [chunkNums]
    omega
  | succ fuel ih =>
    intro executed groups inv hfuel
    by_cases hlt : executed.card < chunks.length
    · have hready := readyChunks_ne_nil hnd hclosed rank hrank hlt
      rw [getParallelChunksGo]
      simp only [hlt, if_true, if_neg hready]
      have hgrow := readyChunks_card_lt hready
      exact ih _ _ (inv.step hnd hready) (by omega)
    · rw [getParallelChunksGo]
      simp only [hlt, if_false]
      refine ⟨groups, rfl, inv.exEq ▸ inv, ?_⟩
      rw [← inv.exEq]
      omega

/-- Wave indices strictly increase along a dependency chain, so a chain
whose head lies in wave `j` has at most `waves.length - j` nodes. -/
theorem chain_index_bound {chunks : List ImplementationChunk}
    {executed : Finset Nat} {waves : List (List Nat)}
    (inv : SchedInv chunks executed waves)
    (hnums : ∀ n ∈ chunkNums chunks, n ∈ waves.flatten) :
    ∀ l : List Nat, l.Chain' (depEdge chunks) →
      (∀ n ∈ l, n ∈ chunkNums chunks) →
      ∀ j, ∀ hj : j < waves.length,
        (∀ a, l.head? = some a → a ∈ waves.get ⟨j, hj⟩) →
        l.length + j ≤ waves.length := by
  intro l
  induction l with
  | nil =>
    intro _ _ j hj _
    simp only [List.length_nil]
    omega
  | cons a l ih =>
    intro hchain hmem j hj hhead
    have ha : a ∈ waves.get ⟨j, hj⟩ := hhead a rfl
    match l, hchain with
    | [], _ =>
      simp only [List.length_cons, List.length_nil]
      omega
    | b :: t, hchain =>
      have hedge : depEdge chunks a b := (List.chain'_cons.mp hchain).1
      have hchain' : (b :: t).Chain' (depEdge chunks) :=
        (List.chain'_cons.mp hchain).2
      have hbflat : b ∈ waves.flatten := hnums b (hmem b (by simp))
      obtain ⟨j', hj', hb⟩ := exists_get_of_mem_flatten hbflat
      -- the edge forces j < j'
      obtain ⟨c, hc, hcn, had⟩ := hedge
      obtain ⟨i, hi, hij', hai⟩ :=
        inv.depsEarlier c hc j' hj' (hcn ▸ hb) a had
      have hieq : i = j := flatten_nodup_unique_wave inv.nodup hi hj hai ha
      have hjj' : j < j' := by omega
      have hrec := ih hchain' (fun n hn => hmem n (by simp [hn])) j' hj'
        (fun x hx => by
          simp only [List.head?_cons, Option.some.injEq] at hx
          exact hx ▸ hb)
      simp only [List.length_cons] at hrec ⊢
      omega

/-- Every member of wave `j` is the endpoint of a dependency chain with
exactly `j + 1` nodes. -/
theorem exists_chain_to_wave {chunks : List ImplementationChunk}
    {executed : Finset Nat} {waves : List (List Nat)}
    (inv : SchedInv chunks executed waves) :
    ∀ j, ∀ hj : j < waves.length, ∀ n ∈ waves.get ⟨j, hj⟩,
      ∃ l, IsDepChain chunks l ∧ l.length = j + 1 ∧ l.getLast? = some n := by
  intro j
  induction j with
  | zero =>
    intro hj n hn
    refine ⟨[n], ⟨by simp, ?_, by simp⟩, by simp, by simp⟩
    intro m hm
    rw [List.mem_singleton.mp hm]
    exact inv.subNums n (mem_flatten_of_get hj hn)
  | succ j ih =>
    intro hj n hn
    obtain ⟨c, hc, hcn, d, hd, hdprev⟩ := inv.backDep j hj n hn
    obtain ⟨l, ⟨hlne, hlmem, hlchain⟩, hllen, hllast⟩ :=
      ih (by omega) d hdprev
    refine ⟨l ++ [n], ⟨by simp, ?_, ?_⟩, by simp [hllen], by simp⟩
    · intro m hm
      rcases List.mem_append.mp hm with h | h
      · exact hlmem m h
      · rw [List.mem_singleton.mp h]
        exact inv.subNums n (mem_flatten_of_get hj hn)
    · rw [List.chain'_append]
      refine ⟨hlchain, by simp, ?_⟩
      intro x hx y hy
      simp only [List.head?_cons] at hy
      rw [hllast] at hx
      rw [Option.mem_def, Option.some.injEq] at hx hy
      rw [← hx, ← hy]
      exact ⟨c, hc, hcn, hd⟩

/-- C1: for every list of chunks whose declared dependency edges form a DAG
— distinct chunk numbers, `depends_on` referencing only chunk numbers
present in the list, and an acyclicity ranking (equivalently, no cycles) —
`get_parallel_chunks` succeeds, and the returned waves satisfy: every chunk
number appears in exactly one wave (the flattened waves are a permutation of
the duplicate-free chunk-number list), every dependency of a chunk lies in a
strictly earlier wave than that chunk, and the number of waves equals the
node count of the longest dependency path in the DAG (every path has at most
`waves.length` nodes and some path attains it). -/
theorem get_parallel_chunks_dag_correct (chunks : List ImplementationChunk)
    (hnd : (chunkNums chunks).Nodup)
    (hclosed : ∀ c ∈ chunks, ∀ d ∈ c.depends_on, d ∈ chunkNums chunks)
    (hdag : ∃ rank : Nat → Nat, ∀ c ∈ chunks, ∀ d ∈ c.depends_on,
      rank d < rank c.chunk_number) :
    ∃ waves, get_parallel_chunks chunks = Except.ok waves ∧
      waves.flatten.Perm (chunkNums chunks) ∧
      (∀ c ∈ chunks, ∀ d ∈ c.depends_on, ∀ i j, ∀ hi : i < waves.length,
        ∀ hj : j < waves.length, d ∈ waves.get ⟨i, hi⟩ →
          c.chunk_number ∈ waves.get ⟨j, hj⟩ → i < j) ∧
      (∀ l, IsDepChain chunks l → l.length ≤ waves.length) ∧
      (chunks ≠ [] → ∃ l, IsDepChain chunks l ∧ l.length = waves.length) := by
  obtain ⟨rank, hrank⟩ := hdag
  obtain ⟨waves, hok, inv, hcard⟩ := getParallelChunksGo_dag hnd hclosed rank
    hrank (chunks.length + 1) ∅ [] (SchedInv.init chunks) (by simp)
  have hsub1 : waves.flatten ⊆ chunkNums chunks := fun n hn => inv.subNums n hn
  have hsub2 : chunkNums chunks ⊆ waves.flatten := by
    have hsubF : waves.flatten.toFinset ⊆ (chunkNums chunks).toFinset := by
      intro n hn
      exact List.mem_toFinset.mpr (hsub1 (List.mem_toFinset.mp hn))
    have heq : waves.flatten.toFinset = (chunkNums chunks).toFinset := by
      apply Finset.eq_of_subset_of_card_le hsubF
      rw [List.toFinset_card_of_nodup hnd]
      have : (chunkNums chunks).length = chunks.length := by simp [chunkNums]
      omega
    intro n hn
    have hmem : n ∈ (chunkNums chunks).toFinset := List.mem_toFinset.mpr hn
    rw [← heq] at hmem
    exact List.mem_toFinset.mp hmem
  refine ⟨waves, hok, ?_, ?_, ?_, ?_⟩
  · exact (List.subperm_of_subset inv.nodup hsub1).antisymm
      (List.subperm_of_subset hnd hsub2)
  · intro c hc d hd i j hi hj hdi hcj
    obtain ⟨i', hi', hij, hdi'⟩ := inv.depsEarlier c hc j hj hcj d hd
    have : i = i' := flatten_nodup_unique_wave inv.nodup hi hi' hdi hdi'
    omega
  · intro l hl
    obtain ⟨hlne, hlmem, hlchain⟩ := hl
    match l, hlne with
    | a :: t, _ =>
      have ha : a ∈ waves.flatten := hsub2 (hlmem a (by simp))
      obtain ⟨j, hj, haj⟩ := exists_get_of_mem_flatten ha
      have hbound := chain_index_bound inv hsub2 (a :: t) hlchain hlmem j hj
        (fun x hx => by
          simp only [List.head?_cons, Option.some.injEq] at hx
          exact hx ▸ haj)
      omega
  · intro hchne
    obtain ⟨c, hc⟩ := List.exists_mem_of_ne_nil chunks hchne
    have hnum : c.chunk_number ∈ waves.flatten := by
      apply hsub2
      simp only [chunkNums, List.mem_map]
      exact ⟨c, hc, rfl⟩
    have hwne : waves ≠ [] := by
      intro hw
      rw [hw] at hnum
      simp at hnum
    have hlen : 0 < waves.length := List.length_pos.mpr hwne
    have hlast_mem : waves.get ⟨waves.length - 1, by omega⟩ ∈ waves :=
      waves.get_mem _ _
    have hlastne : waves.get ⟨waves.length - 1, by omega⟩ ≠ [] :=
      inv.wavesNe _ hlast_mem
    obtain ⟨n, hnlast⟩ := List.exists_mem_of_ne_nil _ hlastne
    obtain ⟨l, hchain, hlen', hlast⟩ :=
      exists_chain_to_wave inv (waves.length - 1) (by omega) n hnlast
    exact ⟨l, hchain, by omega⟩

/-- A diamond-shaped DAG document: chunk 1 is a root, chunks 2 and 3 depend
on 1, chunk 4 depends on 2 and 3; its longest dependency path has 3 nodes. -/
def dagChunks : List ImplementationChunk :=
  [⟨1, "", none, none, [], [], [], [], ""⟩,
   ⟨2, "", none, none, [], [], [], [1], ""⟩,
   ⟨3, "", none, none, [], [], [], [1], ""⟩,
   ⟨4, "", none, none, [], [], [], [2, 3], ""⟩]

/-- Witness for C1 on the concrete diamond DAG `dagChunks`. -/
theorem get_parallel_chunks_dag_correct_witness :
    ∃ waves, get_parallel_chunks dagChunks = Except.ok waves ∧
      waves.flatten.Perm (chunkNums dagChunks) ∧
      (∀ c ∈ dagChunks, ∀ d ∈ c.depends_on, ∀ i j, ∀ hi : i < waves.length,
        ∀ hj : j < waves.length, d ∈ waves.get ⟨i, hi⟩ →
          c.chunk_number ∈ waves.get ⟨j, hj⟩ → i < j) ∧
      (∀ l, IsDepChain dagChunks l → l.length ≤ waves.length) ∧
      (dagChunks ≠ [] → ∃ l, IsDepChain dagChunks l ∧ l.length = waves.length) :=
  get_parallel_chunks_dag_correct dagChunks (by decide) (by decide)
    ⟨id, by decide⟩

/-- The explicit three-chunk cycle 1→2→3→1 from the spec's testable
properties: chunk 1 depends on chunk 2, chunk 2 on chunk 3, chunk 3 on
chunk 1 (the `depends_on` lists an explicit "depends on" marker would
produce). -/
def cycleChunks : List ImplementationChunk :=
  [⟨1, "", none, none, [], [], [], [2], ""⟩,
   ⟨2, "", none, none, [], [], [], [3], ""⟩,
   ⟨3, "", none, none, [], [], [], [1], ""⟩]

/-- C5: for every list of chunks in which some subset `S` remains forever
unschedulable (each chunk numbered in `S` depends on a member of `S`),
`get_parallel_chunks` raises the cyclic-dependency error — it returns no
schedule, and the error names every not-yet-scheduled chunk number of `S`;
on the instance of chunks 1→2→3→1 the error names exactly `[1, 2, 3]`. -/
theorem get_parallel_chunks_cycle
    (chunks : List MvpParser.ImplementationChunk) (S : Finset Nat)
    (hS : S.Nonempty)
    (hSnums : ∀ n ∈ S, ∃ c ∈ chunks, c.chunk_number = n)
    (hstuck : ∀ c ∈ chunks, c.chunk_number ∈ S → ∃ d ∈ c.depends_on, d ∈ S) :
    (∃ rem, get_parallel_chunks chunks = Except.error rem ∧
        ∀ n ∈ S, n ∈ rem) ∧
      get_parallel_chunks cycleChunks = Except.error [1, 2, 3] := by
  constructor
  · exact getParallelChunksGo_stuck chunks S hS hSnums hstuck _ ∅ []
      (by simp) (by simp) (by simp)
  · rfl

/-- Witness for C5 at the concrete cycle 1→2→3→1 with stuck set {1,2,3}. -/
theorem get_parallel_chunks_cycle_witness :
    ∃ rem, get_parallel_chunks cycleChunks = Except.error rem ∧
      ∀ n ∈ ({1, 2, 3} : Finset Nat), n ∈ rem :=
  (get_parallel_chunks_cycle cycleChunks {1, 2, 3} (by decide) (by decide)
    (by decide)).1

/-! ## Dependency analysis (`analyze_dependencies`, `extract_explicit_dependencies`)

The four dependency regexes of `extract_explicit_dependencies` —
`depends?\s+on\s+[Cc]hunk\s+(\d+)`, `requires?\s+[Cc]hunk\s+(\d+)`,
`after\s+[Cc]hunk\s+(\d+)`, `builds?\s+on\s+[Cc]hunk\s+(\d+)`, all with
`re.IGNORECASE` — are embedded as explicit matchers over `List Char`
(ASCII model of the Python text). In each pattern a greedy `\s+` is
always followed by a letter or digit and the optional `s` by mandatory
whitespace, so the deterministic maximal-munch matchers below agree with
the backtracking regex engine on every input. -/

/-- Python ASCII `\s`: space, tab, linefeed, return, vertical tab, form feed. -/
def isPySpace (c : Char) : Bool :=
  c = ' ' || c = '\t' || c = '\n' || c = '\r' || c = '\x0b' || c = '\x0c'

/-- Case-insensitive literal word at the head of the text. -/
def eatLitCI : List Char → List Char → Option (List Char)
  | [], cs => some cs
  | _ :: _, [] => none
  | w :: ws, c :: cs => if c.toLower = w.toLower then eatLitCI ws cs else none

/-- Greedy run of whitespace. -/
def eatSpaces : List Char → List Char
  | [] => []
  | c :: cs => if isPySpace c then eatSpaces cs else c :: cs

/-- `\s+`: at least one whitespace character, consumed greedily. -/
def eatWs1 : List Char → Option (List Char)
  | [] => none
  | c :: cs => if isPySpace c then some (eatSpaces cs) else none

/-- `s?` (case-insensitive). Deterministic: the optional `s` is followed by
`\s+` in every pattern, and `s` is not whitespace, so taking it when present
is exactly what the regex engine commits to. -/
def eatOptS : List Char → List Char
  | [] => []
  | c :: cs => if c.toLower = 's' then cs else c :: cs

/-- Greedy digit run accumulating the base-10 value (`int(match.group(1))`). -/
def eatDigits : List Char → Nat → Nat × List Char
  | [], acc => (acc, [])
  | c :: cs, acc =>
    if c.isDigit then eatDigits cs (acc * 10 + (c.toNat - '0'.toNat))
    else (acc, c :: cs)

/-- `(\d+)`: at least one digit, greedy, returning the captured value. -/
def eatNum1 : List Char → Option (Nat × List Char)
  | [] => none
  | c :: cs =>
    if c.isDigit then some (eatDigits cs (c.toNat - '0'.toNat)) else none

/-- Match one dependency pattern anchored at the head of the text:
keyword, optional `s`, `\s+`, optional `on\s+`, `chunk`, `\s+`, `(\d+)`.
Returns the captured chunk number and the text after the match. -/
def matchDepPatAt (kw : List Char) (optS hasOn : Bool) (cs : List Char) :
    Option (Nat × List Char) := do
  let cs ← eatLitCI kw cs
  let cs := if optS then eatOptS cs else cs
  let cs ← eatWs1 cs
  let cs ←
    if hasOn then do
      let cs ← eatLitCI ['o', 'n'] cs
      eatWs1 cs
    else pure cs
  let cs ← eatLitCI ['c', 'h', 'u', 'n', 'k'] cs
  let cs ← eatWs1 cs
  eatNum1 cs

/-- `re.finditer` for one dependency pattern: scan left to right, on a match
emit its captured number and continue after the match (matches never
overlap), otherwise advance one character. Every step consumes at least one
character (a match always consumes its digits), so `cs.length` fuel is
never exhausted. -/
def finditerNums (m : List Char → Option (Nat × List Char)) :
    Nat → List Char → List Nat
  | 0, _ => []
  | _ + 1, [] => []
  | fuel + 1, c :: cs =>
    match m (c :: cs) with
    | some (n, rest) => n :: finditerNums m fuel rest
    | none => finditerNums m fuel cs

/-- The chunk numbers matched by each of the four dependency patterns of
`dep_patterns`, in pattern order. -/
def depPatternNums (content : List Char) : List (List Nat) :=
  ["depend".data, "require".data, "after".data, "build".data].zipWith
    (fun kw (b : Bool × Bool) =>
      finditerNums (matchDepPatAt kw b.1 b.2) content.length content)
    [(true, true), (true, false), (false, false), (true, true)]

/-- `extract_explicit_dependencies`: collect the numbers matched by any of
the four patterns, first occurrence kept (`if chunk_num not in deps`), then
sorted. On the resulting duplicate-free list of naturals every comparison
sort agrees with Python's `sorted`. -/
def extract_explicit_dependencies (content : String) : List Nat :=
  let deps := (depPatternNums content.data).flatten.foldl
    (fun acc n => if n ∈ acc then acc else acc ++ [n]) []
  deps.insertionSort (· ≤ ·)

/-- `analyze_dependencies`: explicit markers win; otherwise a chunk depends
on its immediate predecessor (`chunks[i - 1].chunk_number`), and the first
chunk is left unchanged. -/
def analyze_dependencies (chunks : List ImplementationChunk) :
    List ImplementationChunk :=
  chunks.mapIdx (fun i c =>
    let explicit := extract_explicit_dependencies c.raw_content
    if explicit ≠ [] then { c with depends_on := explicit }
    else if 0 < i then
      { c with depends_on := [(chunks.getD (i - 1) c).chunk_number] }
    else c)

/-- Membership through the `if chunk_num not in deps` accumulation loop. -/
theorem mem_dedupFold (l : List Nat) :
    ∀ (acc : List Nat) (n : Nat),
      (n ∈ l.foldl (fun acc n => if n ∈ acc then acc else acc ++ [n]) acc ↔
        n ∈ acc ∨ n ∈ l) := by
  induction l with
  | nil => simp
  | cons a l ih =>
    intro acc n
    simp only [List.foldl_cons, ih, List.mem_cons]
    by_cases ha : a ∈ acc
    · simp only [if_pos ha]
      constructor
      · rintro (h | h)
        · exact Or.inl h
        · exact Or.inr (Or.inr h)
      · rintro (h | h | h)
        · exact Or.inl h
        · exact Or.inl (h ▸ ha)
        · exact Or.inr h
    · simp only [if_neg ha, List.mem_append, List.mem_singleton]
      tauto

/-- The accumulation loop preserves duplicate-freeness. -/
theorem nodup_dedupFold (l : List Nat) :
    ∀ acc : List Nat, acc.Nodup →
      (l.foldl (fun acc n => if n ∈ acc then acc else acc ++ [n]) acc).Nodup := by
  induction l with
  | nil => simp
  | cons a l ih =>
    intro acc hacc
    simp only [List.foldl_cons]
    by_cases ha : a ∈ acc
    · simpa only [if_pos ha] using ih acc hacc
    · refine ih _ ?_
      simp only [if_neg ha, List.nodup_append, List.nodup_cons,
        List.not_mem_nil, not_false_iff, List.nodup_nil, and_true, true_and]
      constructor
      · exact hacc
      · intro x hx
        simp only [List.mem_singleton]
        intro hxa
        exact ha (hxa ▸ hx)

/-- Membership in the extracted dependency list is membership in some
pattern's match list. -/
theorem mem_extract_explicit_dependencies {content : String} {n : Nat} :
    n ∈ extract_explicit_dependencies content ↔
      n ∈ (depPatternNums content.data).flatten := by
  unfold extract_explicit_dependencies
  rw [(List.perm_insertionSort _ _).mem_iff, mem_dedupFold]
  simp

/-- The extracted dependency list is sorted and duplicate-free. -/
theorem extract_explicit_dependencies_sorted_nodup (content : String) :
    (extract_explicit_dependencies content).Sorted (· ≤ ·) ∧
      (extract_explicit_dependencies content).Nodup := by
  unfold extract_explicit_dependencies
  refine ⟨List.sorted_insertionSort _ _, ?_⟩
  exact (List.perm_insertionSort _ _).nodup_iff.mpr
    (nodup_dedupFold _ [] (by simp))

/-- The extracted list is empty exactly when no pattern matches anywhere. -/
theorem extract_explicit_dependencies_eq_nil_iff {content : String} :
    extract_explicit_dependencies content = [] ↔
      (depPatternNums content.data).flatten = [] := by
  rw [List.eq_nil_iff_forall_not_mem, List.eq_nil_iff_forall_not_mem]
  constructor
  · intro h n hn
    exact h n (mem_extract_explicit_dependencies.mpr hn)
  · intro h n hn
    exact h n (mem_extract_explicit_dependencies.mp hn)

/-- C9: in dependency analysis over an ordered chunk list (fresh from
parsing, so `depends_on` starts empty), a chunk whose text matches none of
the four dependency patterns gets exactly its immediate predecessor's chunk
number as dependency set (empty for the first chunk), while a chunk whose
text matches some pattern gets exactly the sorted duplicate-free set of all
chunk numbers captured by any of the four synonymous phrasings "depends on
Chunk N", "requires Chunk N", "after Chunk N", "builds on Chunk N" — the
four patterns feed one shared set, with no precedence among them. -/
theorem analyze_dependencies_spec (chunks : List ImplementationChunk)
    (hinit : ∀ c ∈ chunks, c.depends_on = []) :
    (analyze_dependencies chunks).length = chunks.length ∧
    ∀ i, ∀ hi : i < chunks.length, ∀ hi2 : i < (analyze_dependencies chunks).length,
      (((depPatternNums (chunks.get ⟨i, hi⟩).raw_content.data).flatten = [] →
          ((analyze_dependencies chunks).get ⟨i, hi2⟩).depends_on =
            if _hz : i = 0 then []
            else [(chunks.get ⟨i - 1, by omega⟩).chunk_number]) ∧
       ((depPatternNums (chunks.get ⟨i, hi⟩).raw_content.data).flatten ≠ [] →
          ((analyze_dependencies chunks).get ⟨i, hi2⟩).depends_on.Sorted (· ≤ ·) ∧
          ((analyze_dependencies chunks).get ⟨i, hi2⟩).depends_on.Nodup ∧
          ∀ n, (n ∈ ((analyze_dependencies chunks).get ⟨i, hi2⟩).depends_on ↔
            (n ∈ finditerNums (matchDepPatAt "depend".data true true)
              (chunks.get ⟨i, hi⟩).raw_content.data.length
              (chunks.get ⟨i, hi⟩).raw_content.data ∨
             n ∈ finditerNums (matchDepPatAt "require".data true false)
              (chunks.get ⟨i, hi⟩).raw_content.data.length
              (chunks.get ⟨i, hi⟩).raw_content.data ∨
             n ∈ finditerNums (matchDepPatAt "after".data false false)
              (chunks.get ⟨i, hi⟩).raw_content.data.length
              (chunks.get ⟨i, hi⟩).raw_content.data ∨
             n ∈ finditerNums (matchDepPatAt "build".data true true)
              (chunks.get ⟨i, hi⟩).raw_content.data.length
              (chunks.get ⟨i, hi⟩).raw_content.data)))) := by
  have hlen : (analyze_dependencies chunks).length = chunks.length := by
    simp [analyze_dependencies]
  refine ⟨hlen, ?_⟩
  intro i hi hi2
  set c := chunks.get ⟨i, hi⟩ with hc
  have hget : (analyze_dependencies chunks).get ⟨i, hi2⟩ =
      (fun i c =>
        let explicit := extract_explicit_dependencies c.raw_content
        if explicit ≠ [] then { c with depends_on := explicit }
        else if 0 < i then
          { c with depends_on := [(chunks.getD (i - 1) c).chunk_number] }
        else c) i c :=
    List.get_mapIdx chunks _ i hi _
  constructor
  · intro hempty
    have hextr : extract_explicit_dependencies c.raw_content = [] :=
      extract_explicit_dependencies_eq_nil_iff.mpr hempty
    rw [hget]
    simp only [hextr, ne_eq, not_true_eq_false, if_false]
    by_cases hz : i = 0
    · subst hz
      simp only [Nat.lt_irrefl, if_false, dif_pos]
      exact hinit c (chunks.get_mem _ _)
    · have hpos : 0 < i := Nat.pos_of_ne_zero hz
      simp only [hpos, if_true, dif_neg hz]
      have hgetD : chunks.getD (i - 1) c = chunks.get ⟨i - 1, by omega⟩ := by
        rw [List.getD_eq_getElem?_getD, List.getElem?_eq_getElem (by omega)]
        simp [List.get_eq_getElem]
      rw [hgetD]
  · intro hne
    have hextr : extract_explicit_dependencies c.raw_content ≠ [] := by
      intro h
      exact hne (extract_explicit_dependencies_eq_nil_iff.mp h)
    rw [hget]
    simp only [hextr, ne_eq, not_false_iff, if_true]
    obtain ⟨hsort, hnodup⟩ := extract_explicit_dependencies_sorted_nodup c.raw_content
    refine ⟨hsort, hnodup, ?_⟩
    intro n
    rw [mem_extract_explicit_dependencies]
    simp [depPatternNums]

/-- A three-chunk document: chunk 2's text carries explicit markers of two
phrasings; chunks 1 and 3 carry none. -/
def depDocChunks : List ImplementationChunk :=
  [⟨1, "", none, none, [], [], [], [], "Set up the project"⟩,
   ⟨2, "", none, none, [], [], [], [], "This Builds on Chunk 1 and requires chunk 3."⟩,
   ⟨3, "", none, none, [], [], [], [], "Polish the UI"⟩]

/-- Witness for C9 on the concrete document `depDocChunks`. -/
theorem analyze_dependencies_spec_witness :
    (∀ c ∈ depDocChunks, c.depends_on = []) ∧
      (analyze_dependencies depDocChunks).length = depDocChunks.length :=
  ⟨by decide, (analyze_dependencies_spec depDocChunks (by decide)).1⟩

end MvpParser

namespace AdwTest

/-- `AgentPromptResponse` (`adw_modules/data_types.py`). -/
structure AgentPromptResponse where
  output : String
  success : Bool
  session_id : Option String := none
  deriving Repr, DecidableEq

/-- `TestResult` (`adw_modules/data_types.py`). -/
structure TestResult where
  test_name : String
  passed : Bool
  execution_command : String
  test_purpose : String
  error : Option String := none
  deriving Repr, DecidableEq

/-- `E2ETestResult` (`adw_modules/data_types.py`); `status` is the literal
"passed" or "failed". -/
structure E2ETestResult where
  test_name : String
  status : String
  test_path : String
  screenshots : List String := []
  error : Option String := none
  deriving Repr, DecidableEq

/-- The `passed` property of `E2ETestResult`. -/
def E2ETestResult.passed (t : E2ETestResult) : Bool := t.status = "passed"

/-- `parse_test_results` (`adw_test.py`): on a successful parse return the
results with pass/fail counts; any exception from the external `parse_json`
(abstracted as `none`) yields `([], 0, 0)`. -/
def parse_test_results (parsed : Option (List TestResult)) :
    List TestResult × Nat × Nat :=
  match parsed with
  | some results =>
    let passed_count := (results.filter (fun t => t.passed)).length
    (results, passed_count, results.length - passed_count)
  | none => ([], 0, 0)

/-- External behavior driving one unit-test retry run: the test-runner
response per attempt (`run_tests`), the outcome of parsing an output string
(the external `parse_json` of `adw_modules/utils.py`), and the
resolver agent's success per (iteration, failing-item index)
(`execute_template` inside `resolve_failed_tests`). -/
structure TestEnv where
  response : Nat → AgentPromptResponse
  parseJson : String → Option (List TestResult)
  resolverSuccess : Nat → Nat → Bool

/-- `resolve_failed_tests`: one sequential resolver invocation per failing
item; returns (resolved_count, unresolved_count). -/
def resolve_failed_tests (env : TestEnv) (iteration : Nat)
    (failed_tests : List TestResult) : Nat × Nat :=
  (List.range failed_tests.length).foldl
    (fun acc idx =>
      if env.resolverSuccess iteration idx then (acc.1 + 1, acc.2)
      else (acc.1, acc.2 + 1))
    (0, 0)

/-- One batch execution of a retry loop, as recorded for analysis: the
attempt number, the number of resolver invocations made during the attempt,
and whether the loop went on to another attempt afterwards. -/
structure AttemptLog where
  attempt : Nat
  resolverCalls : Nat
  continued : Bool
  deriving Repr, DecidableEq

/-- Result of `run_tests_with_resolution` plus the per-batch log. -/
structure TestLoopResult where
  results : List TestResult
  passed_count : Nat
  failed_count : Nat
  test_response : Option AgentPromptResponse
  log : List AttemptLog
  deriving Repr, DecidableEq

/-- The `while attempt < max_attempts` loop of `run_tests_with_resolution`.
`fuel` is `max_attempts - attempt`, so the while-condition
`attempt < max_attempts` holds exactly when `fuel > 0`; the body always
increments `attempt` by one. One `AttemptLog` entry is recorded per batch
execution (`run_tests` call). -/
def runTestsLoop (env : TestEnv) (maxAttempts : Nat) :
    Nat → Nat → List TestResult × Nat × Nat × Option AgentPromptResponse →
      TestLoopResult
  | 0, _, st => ⟨st.1, st.2.1, st.2.2.1, st.2.2.2, []⟩
  | fuel + 1, attemptsDone, st =>
    let attempt := attemptsDone + 1
    let resp := env.response attempt
    if resp.success = false then
      -- high-level error from the tester: stop and report it
      ⟨st.1, st.2.1, st.2.2.1, some resp, [⟨attempt, 0, false⟩]⟩
    else
      let parsed := parse_test_results (env.parseJson resp.output)
      if parsed.2.2 = 0 then
        -- no failures: all tests passed
        ⟨parsed.1, parsed.2.1, parsed.2.2, some resp, [⟨attempt, 0, false⟩]⟩
      else if attempt = maxAttempts then
        -- final permitted attempt
        ⟨parsed.1, parsed.2.1, parsed.2.2, some resp, [⟨attempt, 0, false⟩]⟩
      else
        let failed_tests := parsed.1.filter (fun t => !t.passed)
        let rr := resolve_failed_tests env attempt failed_tests
        if 0 < rr.1 then
          let rest := runTestsLoop env maxAttempts fuel attempt
            (parsed.1, parsed.2.1, parsed.2.2, some resp)
          ⟨rest.results, rest.passed_count, rest.failed_count,
            rest.test_response, ⟨attempt, failed_tests.length, true⟩ :: rest.log⟩
        else
          -- no tests were resolved, no point in retrying
          ⟨parsed.1, parsed.2.1, parsed.2.2, some resp,
            [⟨attempt, failed_tests.length, false⟩]⟩

/-- `run_tests_with_resolution`. -/
def run_tests_with_resolution (env : TestEnv) (maxAttempts : Nat) :
    TestLoopResult :=
  runTestsLoop env maxAttempts maxAttempts 0 ([], 0, 0, none)

/-- External behavior driving one end-to-end retry run: the batch results
per attempt (`run_e2e_tests`) and the resolver's success per
(iteration, failing-item index) (`resolve_failed_e2e_tests`). -/
structure E2EEnv where
  runBatch : Nat → List E2ETestResult
  resolverSuccess : Nat → Nat → Bool

/-- The format-uncertain marker test:
`t.error and "FORMAT_RETRY_NEEDED" in t.error`. -/
def hasFormatRetryMarker (t : E2ETestResult) : Bool :=
  match t.error with
  | some s => decide ("FORMAT_RETRY_NEEDED".data <:+: s.data)
  | none => false

/-- Python truthiness of an optional error string (`test.error`). -/
def errTruthy (e : Option String) : Bool :=
  match e with
  | none => false
  | some s => s ≠ ""

/-- The set comprehension
`{test.error for test in results if not test.passed and test.error}`. -/
def e2eErrorSet (results : List E2ETestResult) : Finset String :=
  ((results.filter (fun t => !t.passed && errTruthy t.error)).filterMap
    (·.error)).toFinset

/-- `resolve_failed_e2e_tests`: one sequential resolver invocation per
failing item; returns (resolved_count, unresolved_count). -/
def resolve_failed_e2e_tests (env : E2EEnv) (iteration : Nat)
    (failed_tests : List E2ETestResult) : Nat × Nat :=
  (List.range failed_tests.length).foldl
    (fun acc idx =>
      if env.resolverSuccess iteration idx then (acc.1 + 1, acc.2)
      else (acc.1, acc.2 + 1))
    (0, 0)

/-- Result of `run_e2e_tests_with_resolution` plus the per-batch log. -/
structure E2ELoopResult where
  results : List E2ETestResult
  passed_count : Nat
  failed_count : Nat
  log : List AttemptLog
  deriving Repr, DecidableEq

/-- The `while attempt < max_attempts` loop of
`run_e2e_tests_with_resolution`, with `previous_errors` threaded through the
recursion. One `AttemptLog` entry is recorded per iteration
(`run_e2e_tests` call). -/
def runE2ELoop (env : E2EEnv) (maxAttempts : Nat) :
    Nat → Nat → Finset String → List E2ETestResult × Nat × Nat → E2ELoopResult
  | 0, _, _, st => ⟨st.1, st.2.1, st.2.2, []⟩
  | fuel + 1, attemptsDone, prevErrors, st =>
    let attempt := attemptsDone + 1
    let results := env.runBatch attempt
    if results = [] then
      -- no E2E test results to process
      ⟨results, st.2.1, st.2.2, [⟨attempt, 0, false⟩]⟩
    else
      let passed := (results.filter (fun t => t.passed)).length
      let failed := results.length - passed
      if failed = 0 then
        ⟨results, passed, failed, [⟨attempt, 0, false⟩]⟩
      else
        let currentErrors := e2eErrorSet results
        let fixedErrors := prevErrors \ currentErrors
        if attempt = maxAttempts then
          ⟨results, passed, failed, [⟨attempt, 0, false⟩]⟩
        else
          let failed_tests := results.filter (fun t => !t.passed)
          let format_retry_tests := failed_tests.filter hasFormatRetryMarker
          if format_retry_tests ≠ [] then
            -- format-uncertain carve-out: retry without any resolver call
            let rest := runE2ELoop env maxAttempts fuel attempt currentErrors
              (results, passed, failed)
            ⟨rest.results, rest.passed_count, rest.failed_count,
              ⟨attempt, 0, true⟩ :: rest.log⟩
          else
            let real_failures :=
              failed_tests.filter (fun t => !hasFormatRetryMarker t)
            let rr := resolve_failed_e2e_tests env attempt real_failures
            if 0 < rr.1 then
              let rest := runE2ELoop env maxAttempts fuel attempt currentErrors
                (results, passed, failed)
              ⟨rest.results, rest.passed_count, rest.failed_count,
                ⟨attempt, real_failures.length, true⟩ :: rest.log⟩
            else if fixedErrors.Nonempty then
              -- progress detected via error changes
              let rest := runE2ELoop env maxAttempts fuel attempt currentErrors
                (results, passed, failed)
              ⟨rest.results, rest.passed_count, rest.failed_count,
                ⟨attempt, real_failures.length, true⟩ :: rest.log⟩
            else
              -- no progress at all, stop retrying
              ⟨results, passed, failed, [⟨attempt, real_failures.length, false⟩]⟩

/-- `run_e2e_tests_with_resolution`. -/
def run_e2e_tests_with_resolution (env : E2EEnv) (maxAttempts : Nat) :
    E2ELoopResult :=
  runE2ELoop env maxAttempts maxAttempts 0 ∅ ([], 0, 0)

/-- The unit-test loop executes at most `fuel` batches. -/
theorem runTestsLoop_log_le (env : TestEnv) (maxAttempts : Nat) :
    ∀ fuel attemptsDone st,
      (runTestsLoop env maxAttempts fuel attemptsDone st).log.length ≤ fuel := by
  intro fuel
  induction fuel with
  | zero =>
    intro a st
    simp [runTestsLoop]
  | succ fuel ih =>
    intro a st
    rw [runTestsLoop]
    have hrec := ih (a + 1)
      ((parse_test_results (env.parseJson (env.response (a + 1)).output)).1,
       (parse_test_results (env.parseJson (env.response (a + 1)).output)).2.1,
       (parse_test_results (env.parseJson (env.response (a + 1)).output)).2.2,
       some (env.response (a + 1)))
    by_cases h1 : (env.response (a + 1)).success = false
    · rw [if_pos h1]
      dsimp only
      simp only [List.length_cons, List.length_nil]
      omega
    · rw [if_neg h1]
      by_cases h2 : (parse_test_results
          (env.parseJson (env.response (a + 1)).output)).2.2 = 0
      · rw [if_pos h2]
        dsimp only
        simp only [List.length_cons, List.length_nil]
        omega
      · rw [if_neg h2]
        by_cases h3 : a + 1 = maxAttempts
        · rw [if_pos h3]
          dsimp only
          simp only [List.length_cons, List.length_nil]
          omega
        · rw [if_neg h3]
          by_cases h4 : 0 < (resolve_failed_tests env (a + 1)
              ((parse_test_results
                (env.parseJson (env.response (a + 1)).output)).1.filter
                (fun t => !t.passed))).1
          · rw [if_pos h4]
            dsimp only
            simp only [List.length_cons]
            omega
          · rw [if_neg h4]
            dsimp only
            simp only [List.length_cons, List.length_nil]
            omega

/-- The end-to-end loop executes at most `fuel` batches. -/
theorem runE2ELoop_log_le (env : E2EEnv) (maxAttempts : Nat) :
    ∀ fuel attemptsDone prevErrors st,
      (runE2ELoop env maxAttempts fuel attemptsDone prevErrors st).log.length ≤
        fuel := by
  intro fuel
  induction fuel with
  | zero =>
    intro a prev st
    simp [runE2ELoop]
  | succ fuel ih =>
    intro a prev st
    rw [runE2ELoop]
    have hrec := ih (a + 1) (e2eErrorSet (env.runBatch (a + 1)))
      (env.runBatch (a + 1),
       ((env.runBatch (a + 1)).filter (fun t => t.passed)).length,
       (env.runBatch (a + 1)).length -
         ((env.runBatch (a + 1)).filter (fun t => t.passed)).length)
    by_cases h1 : env.runBatch (a + 1) = []
    · rw [if_pos h1]
      dsimp only
      simp only [List.length_cons, List.length_nil]
      omega
    · rw [if_neg h1]
      by_cases h2 : (env.runBatch (a + 1)).length -
          ((env.runBatch (a + 1)).filter (fun t => t.passed)).length = 0
      · rw [if_pos h2]
        dsimp only
        simp only [List.length_cons, List.length_nil]
        omega
      · rw [if_neg h2]
        by_cases h3 : a + 1 = maxAttempts
        · rw [if_pos h3]
          dsimp only
          simp only [List.length_cons, List.length_nil]
          omega
        · rw [if_neg h3]
          by_cases h4 : ((env.runBatch (a + 1)).filter
              (fun t => !t.passed)).filter hasFormatRetryMarker ≠ []
          · rw [if_pos h4]
            dsimp only
            simp only [List.length_cons]
            omega
          · rw [if_neg h4]
            by_cases h5 : 0 < (resolve_failed_e2e_tests env (a + 1)
                (((env.runBatch (a + 1)).filter (fun t => !t.passed)).filter
                  (fun t => !hasFormatRetryMarker t))).1
            · rw [if_pos h5]
              dsimp only
              simp only [List.length_cons]
              omega
            · rw [if_neg h5]
              by_cases h6 : (prev \ e2eErrorSet (env.runBatch (a + 1))).Nonempty
              · rw [if_pos h6]
                dsimp only
                simp only [List.length_cons]
                omega
              · rw [if_neg h6]
                dsimp only
                simp only [List.length_cons, List.length_nil]
                omega

/-- C2: for every `max_attempts ≥ 1` and every behavior of the test-runner,
parser and resolver agents, both `run_tests_with_resolution` and
`run_e2e_tests_with_resolution` execute at most `max_attempts` batches
(one log entry is recorded per batch execution): the loops always
terminate, regardless of resolver behavior — in particular also when a
later attempt's failure set is a superset of an earlier one. -/
theorem retry_loops_terminate (maxAttempts : Nat) (_h1 : 1 ≤ maxAttempts)
    (envU : TestEnv) (envE : E2EEnv) :
    (run_tests_with_resolution envU maxAttempts).log.length ≤ maxAttempts ∧
    (run_e2e_tests_with_resolution envE maxAttempts).log.length ≤ maxAttempts :=
  ⟨runTestsLoop_log_le envU maxAttempts maxAttempts 0 ([], 0, 0, none),
   runE2ELoop_log_le envE maxAttempts maxAttempts 0 ∅ ([], 0, 0)⟩

/-- A unit test that fails on every attempt with the same single error. -/
def regressionTest1 : TestResult :=
  ⟨"test_a", false, "cmd", "purpose", some "error A"⟩

/-- A second failing unit test, appearing only from attempt 2 on. -/
def regressionTest2 : TestResult :=
  ⟨"test_b", false, "cmd", "purpose", some "error B"⟩

/-- A test-runner behavior whose attempt-2 failure set strictly contains the
attempt-1 failure set (a regression introduced by resolution), with a
resolver that always reports success. -/
def regressionTestEnv : TestEnv :=
  ⟨fun n => ⟨toString n, true, none⟩,
   fun s =>
     if s = "1" then some [regressionTest1]
     else some [regressionTest1, regressionTest2],
   fun _ _ => true⟩

/-- The failing E2E counterpart of `regressionTest1`. -/
def regressionE2E1 : E2ETestResult := ⟨"t1", "failed", "p", [], some "error A"⟩

/-- The failing E2E counterpart of `regressionTest2`. -/
def regressionE2E2 : E2ETestResult := ⟨"t2", "failed", "p", [], some "error B"⟩

/-- An E2E batch behavior whose attempt-2 failure set strictly contains the
attempt-1 failure set, with an always-successful resolver. -/
def regressionE2EEnv : E2EEnv :=
  ⟨fun n => if n = 1 then [regressionE2E1] else [regressionE2E1, regressionE2E2],
   fun _ _ => true⟩

/-- Witness for C2: the superset-regression scenario still terminates within
`max_attempts = 2` batch executions in both loops. -/
theorem retry_loops_terminate_witness :
    (run_tests_with_resolution regressionTestEnv 2).log.length ≤ 2 ∧
    (run_e2e_tests_with_resolution regressionE2EEnv 2).log.length ≤ 2 :=
  retry_loops_terminate 2 (by decide) regressionTestEnv regressionE2EEnv

/-- C4: in the unit-test loop, whenever a non-final attempt reports at least
one failure and the resolver resolves zero of the failing items, the loop
stops unconditionally: exactly one batch execution happens from that state
on (the current one), and no further batch runs. -/
theorem run_tests_zero_resolved_stops (env : TestEnv)
    (maxAttempts fuel a : Nat)
    (st : List TestResult × Nat × Nat × Option AgentPromptResponse)
    (hfuel : maxAttempts = a + fuel) (h2 : 2 ≤ fuel)
    (hsucc : (env.response (a + 1)).success = true)
    (hfail : 0 <
      (parse_test_results (env.parseJson (env.response (a + 1)).output)).2.2)
    (hres : (resolve_failed_tests env (a + 1)
      ((parse_test_results (env.parseJson (env.response (a + 1)).output)).1.filter
        (fun t => !t.passed))).1 = 0) :
    (runTestsLoop env maxAttempts fuel a st).log.length = 1 := by
  obtain ⟨f, rfl⟩ : ∃ f, fuel = f + 2 := ⟨fuel - 2, by omega⟩
  rw [runTestsLoop]
  have hne : ¬((env.response (a + 1)).success = false) := by
    rw [hsucc]
    simp
  have hzero : ¬((parse_test_results
      (env.parseJson (env.response (a + 1)).output)).2.2 = 0) := by omega
  have hmax : ¬(a + 1 = maxAttempts) := by omega
  have hnores : ¬(0 < (resolve_failed_tests env (a + 1)
      ((parse_test_results (env.parseJson (env.response (a + 1)).output)).1.filter
        (fun t => !t.passed))).1) := by omega
  rw [if_neg hne, if_neg hzero, if_neg hmax, if_neg hnores]
  dsimp only
  simp

/-- A single unit test failing identically on every attempt. -/
def singleFailure : TestResult := ⟨"test_x", false, "cmd", "p", some "boom"⟩

/-- A behavior reporting the identical single failure on every attempt, with
a resolver reporting zero successes. -/
def stubbornEnv : TestEnv :=
  ⟨fun _ => ⟨"out", true, none⟩, fun _ => some [singleFailure],
   fun _ _ => false⟩

/-- Witness for C4: with `max_attempts = 2` and the identical single failure
with zero resolver successes, exactly one batch execution occurs. -/
theorem run_tests_zero_resolved_stops_witness :
    (run_tests_with_resolution stubbornEnv 2).log.length = 1 :=
  run_tests_zero_resolved_stops stubbornEnv 2 2 0 ([], 0, 0, none) rfl
    (by decide) (by decide) (by decide) (by decide)

/-- C6: in the unit-test loop, if parsing the batch output fails
(`parse_json` raises), `parse_test_results` returns the empty result list
with zero passed and zero failed, and the loop stops at that attempt as if
all tests passed: empty results, zero counts, no resolver call, and no
further batch execution. -/
theorem parse_failure_treated_as_pass (env : TestEnv)
    (maxAttempts fuel a : Nat)
    (st : List TestResult × Nat × Nat × Option AgentPromptResponse)
    (hfuel : 0 < fuel)
    (hsucc : (env.response (a + 1)).success = true)
    (hparse : env.parseJson (env.response (a + 1)).output = none) :
    parse_test_results (env.parseJson (env.response (a + 1)).output) =
      ([], 0, 0) ∧
    runTestsLoop env maxAttempts fuel a st =
      ⟨[], 0, 0, some (env.response (a + 1)), [⟨a + 1, 0, false⟩]⟩ := by
  obtain ⟨f, rfl⟩ : ∃ f, fuel = f + 1 := ⟨fuel - 1, by omega⟩
  have hp : parse_test_results (env.parseJson (env.response (a + 1)).output) =
      ([], 0, 0) := by
    rw [hparse]
    rfl
  refine ⟨hp, ?_⟩
  rw [runTestsLoop]
  have hne : ¬((env.response (a + 1)).success = false) := by
    rw [hsucc]
    simp
  simp only [if_neg hne, hp]
  rfl

/-- With fuel remaining, the e2e loop records at least one batch. -/
theorem runE2ELoop_log_pos (env : E2EEnv) (maxAttempts : Nat)
    (fuel a : Nat) (prev : Finset String) (st : List E2ETestResult × Nat × Nat)
    (h : 0 < fuel) :
    0 < (runE2ELoop env maxAttempts fuel a prev st).log.length := by
  obtain ⟨f, rfl⟩ : ∃ f, fuel = f + 1 := ⟨fuel - 1, by omega⟩
  rw [runE2ELoop]
  by_cases h1 : env.runBatch (a + 1) = []
  · rw [if_pos h1]
    simp
  · rw [if_neg h1]
    by_cases h2 : (env.runBatch (a + 1)).length -
        ((env.runBatch (a + 1)).filter (fun t => t.passed)).length = 0
    · rw [if_pos h2]
      simp
    · rw [if_neg h2]
      by_cases h3 : a + 1 = maxAttempts
      · rw [if_pos h3]
        simp
      · rw [if_neg h3]
        by_cases h4 : ((env.runBatch (a + 1)).filter
            (fun t => !t.passed)).filter hasFormatRetryMarker ≠ []
        · rw [if_pos h4]
          simp
        · rw [if_neg h4]
          by_cases h5 : 0 < (resolve_failed_e2e_tests env (a + 1)
              (((env.runBatch (a + 1)).filter (fun t => !t.passed)).filter
                (fun t => !hasFormatRetryMarker t))).1
          · rw [if_pos h5]
            simp
          · rw [if_neg h5]
            by_cases h6 : (prev \ e2eErrorSet (env.runBatch (a + 1))).Nonempty
            · rw [if_pos h6]
              simp
            · rw [if_neg h6]
              simp

/-- The format-uncertain filter is nonempty iff some failure carries the
marker. -/
theorem format_retry_filter_ne_nil_iff {results : List E2ETestResult} :
    ((results.filter (fun t => !t.passed)).filter hasFormatRetryMarker ≠ []) ↔
      ∃ t ∈ results, t.passed = false ∧ hasFormatRetryMarker t = true := by
  constructor
  · intro h
    obtain ⟨t, ht⟩ := List.exists_mem_of_ne_nil _ h
    obtain ⟨ht1, hm⟩ := List.mem_filter.mp ht
    obtain ⟨ht2, hp⟩ := List.mem_filter.mp ht1
    exact ⟨t, ht2, by simpa using hp, hm⟩
  · rintro ⟨t, ht, hp, hm⟩
    exact List.ne_nil_of_mem (List.mem_filter.mpr
      ⟨List.mem_filter.mpr ⟨ht, by simp [hp]⟩, hm⟩)

/-- C3: in the end-to-end loop, after a failing attempt that is not the
final permitted one, the engine proceeds to another batch execution iff at
least one of: (a) the resolver reported at least one success on that
attempt, (b) the error-set comparison against the previous attempt shows at
least one previously-seen error message absent, (c) at least one failure
carries the format-uncertain marker — and in case (c) the batch is simply
retried with no resolver call made for that attempt (its log entry records
zero resolver calls); if none of (a)-(c) holds, the loop stops with this
attempt as the last batch, in the failed state. -/
theorem e2e_retry_decision (env : E2EEnv) (maxAttempts fuel a : Nat)
    (prev : Finset String) (st : List E2ETestResult × Nat × Nat)
    (hfuel : maxAttempts = a + fuel) (h2 : 2 ≤ fuel)
    (hfail : ∃ t ∈ env.runBatch (a + 1), t.passed = false) :
    (2 ≤ (runE2ELoop env maxAttempts fuel a prev st).log.length ↔
      (0 < (resolve_failed_e2e_tests env (a + 1)
          (((env.runBatch (a + 1)).filter (fun t => !t.passed)).filter
            (fun t => !hasFormatRetryMarker t))).1 ∨
        (∃ e ∈ prev, e ∉ e2eErrorSet (env.runBatch (a + 1))) ∨
        (∃ t ∈ env.runBatch (a + 1), t.passed = false ∧
          hasFormatRetryMarker t = true))) ∧
    ((∃ t ∈ env.runBatch (a + 1), t.passed = false ∧
        hasFormatRetryMarker t = true) →
      ∃ rest, (runE2ELoop env maxAttempts fuel a prev st).log =
        ⟨a + 1, 0, true⟩ :: rest) := by
  obtain ⟨f, rfl⟩ : ∃ f, fuel = f + 2 := ⟨fuel - 2, by omega⟩
  obtain ⟨t₀, ht₀, hp₀⟩ := hfail
  have hne : ¬(env.runBatch (a + 1) = []) := by
    intro h
    rw [h] at ht₀
    simp at ht₀
  have hfailedpos : 0 < (env.runBatch (a + 1)).length -
      ((env.runBatch (a + 1)).filter (fun t => t.passed)).length := by
    have hlt : ((env.runBatch (a + 1)).filter (fun t => t.passed)).length <
        (env.runBatch (a + 1)).length := by
      apply List.length_filter_lt_length_iff_exists.mpr
      exact ⟨t₀, ht₀, by simp [hp₀]⟩
    omega
  have hzero : ¬((env.runBatch (a + 1)).length -
      ((env.runBatch (a + 1)).filter (fun t => t.passed)).length = 0) := by
    omega
  have hmax : ¬(a + 1 = maxAttempts) := by omega
  have hfix_iff : (prev \ e2eErrorSet (env.runBatch (a + 1))).Nonempty ↔
      ∃ e ∈ prev, e ∉ e2eErrorSet (env.runBatch (a + 1)) := by
    constructor
    · rintro ⟨e, he⟩
      obtain ⟨h1, h2⟩ := Finset.mem_sdiff.mp he
      exact ⟨e, h1, h2⟩
    · rintro ⟨e, h1, h2⟩
      exact ⟨e, Finset.mem_sdiff.mpr ⟨h1, h2⟩⟩
  rw [runE2ELoop]
  rw [if_neg hne, if_neg hzero, if_neg hmax]
  by_cases hfmt : ((env.runBatch (a + 1)).filter (fun t => !t.passed)).filter
      hasFormatRetryMarker ≠ []
  · rw [if_pos hfmt]
    dsimp only
    have hpos := runE2ELoop_log_pos env maxAttempts (f + 1) (a + 1)
      (e2eErrorSet (env.runBatch (a + 1)))
      (env.runBatch (a + 1),
       ((env.runBatch (a + 1)).filter (fun t => t.passed)).length,
       (env.runBatch (a + 1)).length -
         ((env.runBatch (a + 1)).filter (fun t => t.passed)).length)
      (by omega)
    constructor
    · simp only [List.length_cons]
      constructor
      · intro _
        exact Or.inr (Or.inr (format_retry_filter_ne_nil_iff.mp hfmt))
      · intro _
        omega
    · intro _
      exact ⟨_, rfl⟩
  · rw [if_neg hfmt]
    have hnoc : ¬(∃ t ∈ env.runBatch (a + 1), t.passed = false ∧
        hasFormatRetryMarker t = true) := by
      intro h
      exact hfmt (format_retry_filter_ne_nil_iff.mpr h)
    by_cases hres : 0 < (resolve_failed_e2e_tests env (a + 1)
        (((env.runBatch (a + 1)).filter (fun t => !t.passed)).filter
          (fun t => !hasFormatRetryMarker t))).1
    · rw [if_pos hres]
      dsimp only
      have hpos := runE2ELoop_log_pos env maxAttempts (f + 1) (a + 1)
        (e2eErrorSet (env.runBatch (a + 1)))
        (env.runBatch (a + 1),
         ((env.runBatch (a + 1)).filter (fun t => t.passed)).length,
         (env.runBatch (a + 1)).length -
           ((env.runBatch (a + 1)).filter (fun t => t.passed)).length)
        (by omega)
      refine ⟨?_, fun h => absurd h hnoc⟩
      simp only [List.length_cons]
      constructor
      · intro _
        exact Or.inl hres
      · intro _
        omega
    · rw [if_neg hres]
      by_cases hfix : (prev \ e2eErrorSet (env.runBatch (a + 1))).Nonempty
      · rw [if_pos hfix]
        dsimp only
        have hpos := runE2ELoop_log_pos env maxAttempts (f + 1) (a + 1)
          (e2eErrorSet (env.runBatch (a + 1)))
          (env.runBatch (a + 1),
           ((env.runBatch (a + 1)).filter (fun t => t.passed)).length,
           (env.runBatch (a + 1)).length -
             ((env.runBatch (a + 1)).filter (fun t => t.passed)).length)
          (by omega)
        refine ⟨?_, fun h => absurd h hnoc⟩
        simp only [List.length_cons]
        constructor
        · intro _
          exact Or.inr (Or.inl (hfix_iff.mp hfix))
        · intro _
          omega
      · rw [if_neg hfix]
        dsimp only
        refine ⟨?_, fun h => absurd h hnoc⟩
        simp only [List.length_cons, List.length_nil]
        constructor
        · intro h
          omega
        · rintro (h | h | h)
          · exact absurd h hres
          · exact absurd (hfix_iff.mpr h) hfix
          · exact absurd h hnoc

/-- An E2E behavior with a single genuine failure, an always-failing
resolver, and errors unchanged across attempts: none of the continue
signals holds. -/
def noProgressE2EEnv : E2EEnv :=
  ⟨fun _ => [⟨"t1", "failed", "p", [], some "stuck error"⟩], fun _ _ => false⟩

/-- Witness for C3 at the concrete behavior `noProgressE2EEnv`, previous
error set empty: the loop stops (no second batch) because none of (a)-(c)
holds. -/
theorem e2e_retry_decision_witness :
    (2 ≤ (runE2ELoop noProgressE2EEnv 4 4 0 ∅ ([], 0, 0)).log.length ↔
      (0 < (resolve_failed_e2e_tests noProgressE2EEnv 1
          (((noProgressE2EEnv.runBatch 1).filter (fun t => !t.passed)).filter
            (fun t => !hasFormatRetryMarker t))).1 ∨
        (∃ e ∈ (∅ : Finset String), e ∉ e2eErrorSet (noProgressE2EEnv.runBatch 1)) ∨
        (∃ t ∈ noProgressE2EEnv.runBatch 1, t.passed = false ∧
          hasFormatRetryMarker t = true))) ∧
    ((∃ t ∈ noProgressE2EEnv.runBatch 1, t.passed = false ∧
        hasFormatRetryMarker t = true) →
      ∃ rest, (runE2ELoop noProgressE2EEnv 4 4 0 ∅ ([], 0, 0)).log =
        ⟨1, 0, true⟩ :: rest) :=
  e2e_retry_decision noProgressE2EEnv 4 4 0 ∅ ([], 0, 0) rfl (by decide)
    ⟨⟨"t1", "failed", "p", [], some "stuck error"⟩, by decide, by decide⟩

/-- A behavior whose tester succeeds but whose output never parses. -/
def badParseEnv : TestEnv :=
  ⟨fun _ => ⟨"garbage", true, none⟩, fun _ => none, fun _ _ => false⟩

/-- Witness for C6 at the concrete behavior `badParseEnv`. -/
theorem parse_failure_treated_as_pass_witness :
    parse_test_results (badParseEnv.parseJson (badParseEnv.response 1).output) =
      ([], 0, 0) ∧
    runTestsLoop badParseEnv 4 4 0 ([], 0, 0, none) =
      ⟨[], 0, 0, some (badParseEnv.response 1), [⟨1, 0, false⟩]⟩ :=
  parse_failure_treated_as_pass badParseEnv 4 4 0 ([], 0, 0, none)
    (by decide) rfl rfl

end AdwTest

namespace Agent

/-- A parsed JSONL transcript record, with the optional fields that
`prompt_claude_code` reads via `.get(...)` with their defaults applied at
use sites. -/
structure TranscriptMessage where
  type : String
  session_id : Option String := none
  is_error : Option Bool := none
  subtype : Option String := none
  result : Option String := none
  deriving Repr, DecidableEq

/-- The fate of the `subprocess.run` call inside the gateway's try-block:
completed with a return code and captured stderr, raised
`subprocess.TimeoutExpired`, or raised some other exception. -/
inductive SubprocessOutcome where
  | completed (returncode : Int) (stderr : String)
  | timedOut
  | raised (msg : String)
  deriving Repr, DecidableEq

/-- `parse_jsonl_output`'s result search: the last record of type "result"
(the loop walks `reversed(messages)` and stops at the first hit). -/
def findResultMessage (messages : List TranscriptMessage) :
    Option TranscriptMessage :=
  messages.reverse.find? (fun m => m.type = "result")

/-- The result-handling logic of `prompt_claude_code`
(`adw_modules/agent.py`) after the CLI-availability check, as a function of
the subprocess outcome, the parsed transcript records, and the raw contents
of the transcript file (read back when no result record is found). -/
def prompt_claude_code (outcome : SubprocessOutcome)
    (messages : List TranscriptMessage) (rawOutput : String) :
    AdwTest.AgentPromptResponse :=
  match outcome with
  | .completed returncode stderr =>
    if returncode = 0 then
      match findResultMessage messages with
      | some m =>
        if m.subtype.getD "" = "error_during_execution" then
          ⟨"Error during execution: Agent encountered an error and did not return a result",
            false, m.session_id⟩
        else
          ⟨m.result.getD "", !(m.is_error.getD false), m.session_id⟩
      | none =>
        -- no result message found: return the raw output with success=True
        ⟨rawOutput, true, none⟩
    else
      ⟨"Claude Code error: " ++ stderr, false, none⟩
  | .timedOut =>
    ⟨"Error: Claude Code command timed out after 5 minutes", false, none⟩
  | .raised msg =>
    ⟨"Error executing Claude Code: " ++ msg, false, none⟩

/-- C7 counterexample: a subprocess that completes (exit code 0) with a
transcript containing no record of type "result" yields `success = true`
(the raw transcript as output), not the claimed `success = false` — both
for an empty transcript and for a transcript with only non-result
records. -/
theorem prompt_claude_code_no_result_counterexample :
    (prompt_claude_code (SubprocessOutcome.completed 0 "") []
      "raw transcript").success = true ∧
    (prompt_claude_code (SubprocessOutcome.completed 0 "")
      [⟨"assistant", none, none, none, none⟩] "raw").success = true := by
  decide

/-- C7 amended: when the subprocess completes with exit code 0 and the
transcript has no result record, the gateway returns `success = true` with
the raw transcript contents as output and session token `None`; a nonzero
exit code, a timeout, or any other exception yields `success = false` with
a diagnostic message and session token `None`; in every case a response
value is returned (the embedding is a total function), so no exception
reaches the caller. -/
theorem prompt_claude_code_failure_contract
    (messages : List TranscriptMessage) (rawOutput stderr msg : String)
    (returncode : Int) :
    (findResultMessage messages = none → returncode = 0 →
      prompt_claude_code (.completed returncode stderr) messages rawOutput =
        ⟨rawOutput, true, none⟩) ∧
    (returncode ≠ 0 →
      (prompt_claude_code (.completed returncode stderr) messages
        rawOutput).success = false ∧
      (prompt_claude_code (.completed returncode stderr) messages
        rawOutput).session_id = none) ∧
    ((prompt_claude_code .timedOut messages rawOutput).success = false ∧
      (prompt_claude_code .timedOut messages rawOutput).session_id = none) ∧
    ((prompt_claude_code (.raised msg) messages rawOutput).success = false ∧
      (prompt_claude_code (.raised msg) messages rawOutput).session_id =
        none) := by
  refine ⟨?_, ?_, ?_, ?_⟩
  · intro hnone hrc
    subst hrc
    simp [prompt_claude_code, hnone]
  · intro hrc
    constructor <;> simp [prompt_claude_code, if_neg hrc]
  · exact ⟨rfl, rfl⟩
  · exact ⟨rfl, rfl⟩

/-- Witness for the amended C7 at concrete inputs. -/
theorem prompt_claude_code_failure_contract_witness :
    prompt_claude_code (SubprocessOutcome.completed 0 "") [] "raw" =
      ⟨"raw", true, none⟩ ∧
    (prompt_claude_code SubprocessOutcome.timedOut [] "raw").success =
      false :=
  ⟨(prompt_claude_code_failure_contract [] "raw" "" "" 0).1 rfl rfl,
   (prompt_claude_code_failure_contract [] "raw" "" "" 0).2.2.1.1⟩

end Agent

namespace AdwState

/-- A Python value stored in the state dict: a string, or any other object
(abstracted by a tag). -/
inductive PyVal where
  | str (s : String)
  | obj (n : Nat)
  deriving Repr, DecidableEq

/-- `ADWState` (`adw_modules/state.py`): the `adw_id` attribute and the
`data` dict (modelled by its lookup function). -/
structure ADWState where
  adw_id : String
  data : String → Option PyVal

/-- `ADWState.__init__`: requires a nonempty `adw_id` (else
`ValueError`, modelled as `none`) and starts with
`data = {"adw_id": adw_id}`. -/
def ADWState.init (adw_id : String) : Option ADWState :=
  if adw_id = "" then none
  else some ⟨adw_id, fun k => if k = "adw_id" then some (.str adw_id) else none⟩

/-- The recognized core fields of `ADWState.update`. -/
def coreFields : List String :=
  ["adw_id", "issue_number", "branch_name", "plan_file", "issue_class"]

/-- One `self.data[key] = value` assignment of `ADWState.update`, guarded
by the core-field filter. -/
def updateStep (d : String → Option PyVal) (kv : String × PyVal) :
    String → Option PyVal :=
  if kv.1 ∈ coreFields then
    fun k => if k = kv.1 then some kv.2 else d k
  else d

/-- `ADWState.update(**kwargs)`: merge only recognized fields into `data`,
in argument order; unrecognized keys are silently dropped. -/
def ADWState.update (s : ADWState) (kwargs : List (String × PyVal)) :
    ADWState :=
  { s with data := kwargs.foldl updateStep s.data }

/-- The state created by `ADWState("run1")`. -/
def state1 : ADWState :=
  ⟨"run1", fun k => if k = "adw_id" then some (.str "run1") else none⟩

/-- C8 counterexample: `"adw_id"` is itself a recognized core field of
`update`, so a single `update(adw_id="run2")` on a record created with
`adw_id="run1"` overwrites the stored run identifier — the record's
`adw_id` entry no longer equals the identifier it was created with. -/
theorem adw_id_immutability_counterexample :
    ADWState.init "run1" = some state1 ∧
    (state1.update [("adw_id", PyVal.str "run2")]).data "adw_id" =
      some (PyVal.str "run2") ∧
    (state1.update [("adw_id", PyVal.str "run2")]).data "adw_id" ≠
      some (PyVal.str "run1") :=
  ⟨rfl, rfl, by decide⟩

/-- C8 amended: the `adw_id` attribute of the record is immutable under
every sequence of `update` calls, and the stored `"adw_id"` data entry
equals the creation value provided no update call passes the `"adw_id"`
key (updates with any other keys, recognized or not, never touch it). -/
theorem adw_id_immutable_amended (adw_id : String) (h : adw_id ≠ "")
    (updates : List (List (String × PyVal)))
    (hnone : ∀ kw ∈ updates, ∀ kv ∈ kw, kv.1 ≠ "adw_id") :
    ∀ s₀, ADWState.init adw_id = some s₀ →
      (updates.foldl (fun s kw => s.update kw) s₀).adw_id = adw_id ∧
      (updates.foldl (fun s kw => s.update kw) s₀).data "adw_id" =
        some (PyVal.str adw_id) := by
  intro s₀ hinit
  rw [ADWState.init, if_neg h] at hinit
  have hs₀ := Option.some.inj hinit
  have hstep : ∀ (d : String → Option PyVal) (kv : String × PyVal),
      kv.1 ≠ "adw_id" → updateStep d kv "adw_id" = d "adw_id" := by
    intro d kv hne
    unfold updateStep
    by_cases hcore : kv.1 ∈ coreFields
    · rw [if_pos hcore, if_neg (fun hh => hne hh.symm)]
    · rw [if_neg hcore]
  have hfoldd : ∀ (kw : List (String × PyVal)) (d : String → Option PyVal),
      (∀ kv ∈ kw, kv.1 ≠ "adw_id") →
      (kw.foldl updateStep d) "adw_id" = d "adw_id" := by
    intro kw
    induction kw with
    | nil =>
      intro d _
      rfl
    | cons kv kw ih =>
      intro d hkw
      simp only [List.foldl_cons]
      rw [ih (updateStep d kv) (fun kv' hm => hkw kv' (by simp [hm]))]
      exact hstep d kv (hkw kv (by simp))
  have hfold : ∀ (us : List (List (String × PyVal))) (s : ADWState),
      (∀ kw ∈ us, ∀ kv ∈ kw, kv.1 ≠ "adw_id") →
      (us.foldl (fun s kw => s.update kw) s).adw_id = s.adw_id ∧
      (us.foldl (fun s kw => s.update kw) s).data "adw_id" =
        s.data "adw_id" := by
    intro us
    induction us with
    | nil =>
      intro s _
      exact ⟨rfl, rfl⟩
    | cons kw us ih =>
      intro s hn
      simp only [List.foldl_cons]
      have h2 := ih (s.update kw)
        (fun kw' hm' kv hm => hn kw' (by simp [hm']) kv hm)
      refine ⟨h2.1, ?_⟩
      rw [h2.2]
      exact hfoldd kw s.data (fun kv hm => hn kw (by simp) kv hm)
  subst hs₀
  obtain ⟨h1, h2⟩ := hfold updates _ hnone
  refine ⟨h1, ?_⟩
  rw [h2]
  simp

/-- The state created by `ADWState("abc")`. -/
def stateAbc : ADWState :=
  ⟨"abc", fun k => if k = "adw_id" then some (.str "abc") else none⟩

/-- Witness for the amended C8: a creation followed by two updates that do
not name `adw_id` keeps both the attribute and the stored entry intact. -/
theorem adw_id_immutable_amended_witness :
    (([[("issue_number", PyVal.str "12")], [("branch_name", PyVal.str "b")]].foldl
      (fun s kw => s.update kw) stateAbc)).adw_id = "abc" ∧
    (([[("issue_number", PyVal.str "12")], [("branch_name", PyVal.str "b")]].foldl
      (fun s kw => s.update kw) stateAbc)).data "adw_id" =
      some (PyVal.str "abc") :=
  adw_id_immutable_amended "abc" (by decide)
    [[("issue_number", PyVal.str "12")], [("branch_name", PyVal.str "b")]]
    (by decide) stateAbc rfl

end AdwState

namespace TriggerCron

/-- A GitHub issue comment as consumed by `should_process_issue`:
`comment.get("body", "")` and `comment.get("id")`. -/
structure IssueComment where
  body : String
  id : Option Int
  deriving Repr, DecidableEq

/-- Python `str.lower()` (ASCII model). -/
def pyLower (s : String) : String := ⟨s.data.map Char.toLower⟩

/-- Python `str.strip()` (ASCII whitespace model). -/
def pyStrip (s : String) : String :=
  ⟨((s.data.dropWhile MvpParser.isPySpace).reverse.dropWhile
      MvpParser.isPySpace).reverse⟩

/-- `should_process_issue` (`adw_triggers/trigger_cron.py`), with the
module-global `issue_last_comment` dedup store passed and returned
explicitly (modelled by its `.get` view: `none` is both "absent" and
"stored None", exactly as `dict.get` reports them). Returns
`((should_process, include_tests), store)`; the store update happens
inside this decision, before the return — the workflow subprocess launch
(`trigger_adw_workflow`) only happens later, in
`check_and_process_issues`. -/
def should_process_issue (store : Int → Option Int)
    (comments : List IssueComment) (issue_number : Int) :
    (Bool × Bool) × (Int → Option Int) :=
  match comments.getLast? with
  | none =>
    -- no comments: a new issue, process it (default: no tests)
    ((true, false), store)
  | some latest =>
    let comment_body := pyStrip (pyLower latest.body)
    let comment_id := latest.id
    if store issue_number = comment_id then
      ((false, false), store)
    else if comment_body = "adw_test" then
      ((true, true), fun i => if i = issue_number then comment_id else store i)
    else if comment_body = "adw" then
      ((true, false), fun i => if i = issue_number then comment_id else store i)
    else
      ((false, false), store)

/-- C10: an issue's trigger events are actionable at most once per latest
comment id. (1) If the dedup store already records the latest comment id
for the issue, `should_process_issue` returns not-actionable and leaves the
store unchanged. (2) Whenever it decides to act on a commented issue, the
store it returns records that comment id — the update is made at the moment
of the decision, inside `should_process_issue`, before
`check_and_process_issues` ever launches the workflow subprocess. (3) Hence
a second call seeing the same latest comment id is not actionable. -/
theorem should_process_issue_dedup (store : Int → Option Int)
    (comments : List IssueComment) (issue : Int) (latest : IssueComment)
    (hlast : comments.getLast? = some latest) :
    (store issue = latest.id →
      should_process_issue store comments issue = ((false, false), store)) ∧
    (∀ st' tests,
      should_process_issue store comments issue = ((true, tests), st') →
      st' issue = latest.id) ∧
    (∀ st' tests,
      should_process_issue store comments issue = ((true, tests), st') →
      should_process_issue st' comments issue = ((false, false), st')) := by
  have hseen : ∀ st : Int → Option Int, st issue = latest.id →
      should_process_issue st comments issue = ((false, false), st) := by
    intro st hst
    unfold should_process_issue
    rw [hlast]
    simp only [if_pos hst]
  have hact : ∀ st' tests,
      should_process_issue store comments issue = ((true, tests), st') →
      st' issue = latest.id := by
    intro st' tests heq
    unfold should_process_issue at heq
    rw [hlast] at heq
    dsimp only at heq
    by_cases h1 : store issue = latest.id
    · rw [if_pos h1] at heq
      simp at heq
    · rw [if_neg h1] at heq
      by_cases h2 : pyStrip (pyLower latest.body) = "adw_test"
      · rw [if_pos h2] at heq
        have hst := congrArg Prod.snd heq
        simp only at hst
        rw [← hst]
        simp
      · rw [if_neg h2] at heq
        by_cases h3 : pyStrip (pyLower latest.body) = "adw"
        · rw [if_pos h3] at heq
          have hst := congrArg Prod.snd heq
          simp only at hst
          rw [← hst]
          simp
        · rw [if_neg h3] at heq
          simp at heq
  refine ⟨hseen store, hact, ?_⟩
  intro st' tests heq
  exact hseen st' (hact st' tests heq)

/-- Witness for C10: issue 7 whose latest comment is "adw" with id 5,
starting from an empty store — the first call acts and records id 5, the
second call is a no-op. -/
theorem should_process_issue_dedup_witness :
    ((fun _ => none : Int → Option Int) 7 =
        (IssueComment.mk "adw" (some 5)).id →
      should_process_issue (fun _ => none) [⟨"adw", some 5⟩] 7 =
        ((false, false), fun _ => none)) ∧
    (∀ st' tests,
      should_process_issue (fun _ => none) [⟨"adw", some 5⟩] 7 =
        ((true, tests), st') →
      st' 7 = (IssueComment.mk "adw" (some 5)).id) ∧
    (∀ st' tests,
      should_process_issue (fun _ => none) [⟨"adw", some 5⟩] 7 =
        ((true, tests), st') →
      should_process_issue st' [⟨"adw", some 5⟩] 7 = ((false, false), st')) :=
  should_process_issue_dedup (fun _ => none) [⟨"adw", some 5⟩] 7
    ⟨"adw", some 5⟩ rfl

end TriggerCron
